import Mathlib

/-!
Verification of the streaming Merkle tree in src/MerkleTreeCodeReview.cpp.

The C++ program keeps an arena of heap-allocated `MerkleNode` objects linked
by `shared_ptr`s.  We embed it by an explicit arena: a node is a record whose
child and parent pointers are optional indices into a list of nodes (`none`
models a null pointer).  SHA-256 hex digests are modelled by the free digest
algebra `Digest`: `Digest.leaf v` stands for `hash256_hex_string(v)` and
`Digest.node l r` for `hash256_hex_string(l ++ r)`; the hash primitive is an
opaque deterministic function, so the free algebra is a faithful model.
Dereferencing a null pointer (for example `right_->hash()` when `right_` is
null, or `sibling->hash()` when `getSibling` returned null) is undefined
behaviour in the C++ program; operations that can reach such a dereference
return `Option` and yield `none` exactly there.
-/

/-- Free model of the SHA-256 hex digest produced by picosha2:
`leaf v` is the digest of the byte sequence `v`, `node l r` the digest of
the concatenation of the two child hex digests (MerkleTreeCodeReview.cpp
lines 28 and 35). -/
inductive Digest where
  | leaf (value : String)
  | node (l r : Digest)
deriving DecidableEq, Repr

/-- One `MerkleNode` of the C++ program (lines 17-45): optional child and
parent pointers (arena indices; `none` is a null `shared_ptr`), the stored
hash, and the optional leaf value. -/
structure MerkleNode where
  left : Option Nat
  right : Option Nat
  parent : Option Nat
  hash : Digest
  value : Option String
deriving DecidableEq, Repr

/-- Placeholder node returned when an arena index is out of range.  Valid
runs of the program never read it: C++ pointers are never dangling here,
only possibly null, and null dereference is modelled separately. -/
def defaultNode : MerkleNode :=
  { left := none, right := none, parent := none,
    hash := Digest.leaf "", value := none }

/-- Arena lookup: the node stored at index `i`. -/
def nthNode : List MerkleNode → Nat → MerkleNode
  | [], _ => defaultNode
  | n :: _, 0 => n
  | _ :: rest, i + 1 => nthNode rest i

/-- `set_parent` (line 44): overwrite the parent pointer of node `i`. -/
def setParent : List MerkleNode → Nat → Nat → List MerkleNode
  | [], _, _ => []
  | n :: rest, 0, p => { n with parent := some p } :: rest
  | n :: rest, i + 1, p => n :: setParent rest i p

/-- The leaf constructor `MerkleNode(const std::string&)` (lines 25-29). -/
def MerkleNode.mkLeaf (value : String) : MerkleNode :=
  { left := none, right := none, parent := none,
    hash := Digest.leaf value, value := some value }

/-- `node->hash()` through an optional pointer: dereferencing a null
pointer is undefined behaviour, modelled as `none`. -/
def derefHash (ns : List MerkleNode) : Option Nat → Option Digest
  | none => none
  | some i => some (nthNode ns i).hash

/-- The intermediate constructor `MerkleNode(MerkleNode*, MerkleNode*)`
(lines 32-36): it reads `left_->hash()` and `right_->hash()`, so a null
argument crashes (`none`). -/
def mkIntermediate (ns : List MerkleNode) (l r : Option Nat) :
    Option MerkleNode :=
  match derefHash ns l, derefHash ns r with
  | some lh, some rh =>
      some { left := l, right := r, parent := none,
             hash := Digest.node lh rh, value := none }
  | _, _ => none

/-- The intermediate constructor applied to two non-null pointers, as in
`push_back` and the paired case of `updateRoot`; total, and it agrees with
`mkIntermediate` on non-null arguments (`mkIntermediate_some` below). -/
def combineNodes (ns : List MerkleNode) (l r : Nat) : MerkleNode :=
  { left := some l, right := some r, parent := none,
    hash := Digest.node (nthNode ns l).hash (nthNode ns r).hash,
    value := none }

/-- `frontier_.count(k) > 0` / `frontier_[k]` on the `std::map` (the map is
modelled as an association list sorted by key; the stored value is an arena
index for the program itself, a digest for the value-level mirror used to
state determinism). -/
def frontierLookup {α : Type} : List (Nat × α) → Nat → Option α
  | [], _ => none
  | (k', v) :: rest, k => if k' = k then some v else frontierLookup rest k

/-- `frontier_.erase(k)` on the association list. -/
def frontierErase {α : Type} : List (Nat × α) → Nat → List (Nat × α)
  | [], _ => []
  | (k', v) :: rest, k =>
      if k' = k then frontierErase rest k
      else (k', v) :: frontierErase rest k

/-- `frontier_[k] = v`: sorted insertion, mirroring `std::map` order. -/
def frontierInsert {α : Type} (k : Nat) (v : α) :
    List (Nat × α) → List (Nat × α)
  | [] => [(k, v)]
  | (k', v') :: rest =>
      if k < k' then (k, v) :: (k', v') :: rest
      else if k = k' then (k, v) :: rest
      else (k', v') :: frontierInsert k v rest

/-- The state of a `StreamingMerkleTree` (lines 47-134) together with the
arena of every node allocated so far: `root` and the frontier map hold
arena indices. -/
structure MTree where
  nodes : List MerkleNode
  root : Option Nat
  frontier : List (Nat × Nat)
deriving DecidableEq, Repr

/-- The freshly constructed tree (line 99): null root, empty frontier. -/
def emptyTree : MTree := { nodes := [], root := none, frontier := [] }

/-- The occupied size-class keys of the frontier, in ascending order. -/
def frontierKeys (s : MTree) : List Nat := s.frontier.map Prod.fst

/-- The digest of the current root node (`root_->hash()`), `none` when the
tree has no root. -/
def rootDigest (s : MTree) : Option Digest :=
  s.root.map fun r => (nthNode s.nodes r).hash

/-- The merge loop of `push_back` (lines 103-113): while the frontier holds
an entry at `size`, combine `combine` (left) with `frontier_[size]` (right),
reparent both to the new node, erase the entry and double `size`.  Each
iteration erases one frontier entry, so `fr.length + 1` fuel always
suffices (`pushLoopF_fuel`); `pushLoop` below supplies it. -/
def pushLoopF : Nat → List MerkleNode → Nat → Nat → List (Nat × Nat) →
    List MerkleNode × Nat × Nat × List (Nat × Nat)
  | 0, ns, combine, size, fr => (ns, combine, size, fr)
  | fuel + 1, ns, combine, size, fr =>
      match frontierLookup fr size with
      | none => (ns, combine, size, fr)
      | some fid =>
          let temp := combineNodes ns combine fid
          let tid := ns.length
          let ns' := setParent (setParent (ns ++ [temp]) combine tid) fid tid
          pushLoopF fuel ns' tid (size * 2) (frontierErase fr size)

/-- The merge loop of `push_back` with sufficient fuel. -/
def pushLoop (ns : List MerkleNode) (combine size : Nat)
    (fr : List (Nat × Nat)) :
    List MerkleNode × Nat × Nat × List (Nat × Nat) :=
  pushLoopF (fr.length + 1) ns combine size fr

/-- The body of `push_back` (lines 101-114) before the final `updateRoot()`
call: run the merge loop starting from the pushed node at size-class 1,
then store the carry in the frontier. -/
def pushBackCore (s : MTree) (nid : Nat) : MTree :=
  match pushLoop s.nodes nid 1 s.frontier with
  | (ns, combine, size, fr) =>
      { s with nodes := ns, frontier := frontierInsert size combine fr }

/-- One pass of the inner `for` loop of `updateRoot` plus the odd-leftover
branch (lines 74-91): consecutive entries are paired into new intermediate
nodes (earlier entry left, later right) and reparented; a lone leftover is
combined with a null right pointer, which dereferences null in the
intermediate constructor (`none`). -/
def pairPass (ns : List MerkleNode) :
    List Nat → Option (List MerkleNode × List Nat)
  | [] => some (ns, [])
  | [x] =>
      match mkIntermediate ns (some x) none with
      | none => none
      | some nd =>
          some (setParent (ns ++ [nd]) x ns.length, [ns.length])
  | x :: y :: rest =>
      let hashed := combineNodes ns x y
      let hid := ns.length
      let ns' := setParent (setParent (ns ++ [hashed]) x hid) y hid
      match pairPass ns' rest with
      | none => none
      | some (ns'', lvl) => some (ns'', hid :: lvl)

/-- The outer `while (level.size() > 1)` loop of `updateRoot` (lines
72-93): run `pairPass` until one node remains; that node becomes the root.
A successful pass halves the level, so `level.length + 1` fuel always
suffices (`updateLoopF_fuel`); a level that is empty models the undefined
`level[0]` read and yields `none`. -/
def updateLoopF : Nat → List MerkleNode → List Nat →
    Option (List MerkleNode × Nat)
  | 0, _, _ => none
  | _ + 1, _, [] => none
  | _ + 1, ns, [r] => some (ns, r)
  | fuel + 1, ns, x :: y :: rest =>
      match pairPass ns (x :: y :: rest) with
      | none => none
      | some (ns', lvl) => updateLoopF fuel ns' lvl

/-- `updateRoot` (lines 64-96): collect the frontier nodes in ascending
key order, run the pairing loop, store the surviving node as the root. -/
def updateRoot (s : MTree) : Option MTree :=
  match updateLoopF (s.frontier.length + 1) s.nodes (s.frontier.map Prod.snd)
  with
  | none => none
  | some (ns, r) => some { s with nodes := ns, root := some r }

/-- `push_back` (lines 101-116): merge loop, frontier store, then
`updateRoot()`. -/
def push_back (s : MTree) (nid : Nat) : Option MTree :=
  updateRoot (pushBackCore s nid)

/-- An insertion as performed by the callers of the class: allocate a leaf
node for the value (lines 139-142) and `push_back` it (lines 145-154). -/
def insertLeaf (s : MTree) (v : String) : Option MTree :=
  push_back { s with nodes := s.nodes ++ [MerkleNode.mkLeaf v] }
    s.nodes.length

/-- A whole sequence of insertions; `none` as soon as one of them crashes. -/
def insertAll (s : MTree) : List String → Option MTree
  | [] => some s
  | v :: vs =>
      match insertLeaf s v with
      | none => none
      | some s' => insertAll s' vs

/-- The frontier phase of an insertion alone, without the `updateRoot()`
call (lines 101-114): total, because both children of every merge are
non-null there. -/
def insertLeafCore (s : MTree) (v : String) : MTree :=
  pushBackCore { s with nodes := s.nodes ++ [MerkleNode.mkLeaf v] }
    s.nodes.length

/-- Iterated frontier phases of insertions. -/
def insertAllCore (s : MTree) : List String → MTree
  | [] => s
  | v :: vs => insertAllCore (insertLeafCore s v) vs

/-- `getSibling` (lines 52-62): the other child of the parent of `nid`,
null when there is no parent or no filled other-child slot. -/
def getSibling (s : MTree) (nid : Nat) : Option Nat :=
  match (nthNode s.nodes nid).parent with
  | none => none
  | some p =>
      let pn := nthNode s.nodes p
      if pn.left = some nid ∧ pn.right ≠ none then pn.right
      else if pn.right = some nid ∧ pn.left ≠ none then pn.left
      else none

/-- The `while (current != root_)` loop of `generateProof` (lines 122-126):
append the sibling hash (dereferencing a null sibling is `none`), step to
the parent.  Parent indices always exceed the child index, so
`s.nodes.length + 1` fuel suffices on every state the program builds. -/
def proofLoopF (s : MTree) : Nat → Nat → List Digest → Option (List Digest)
  | 0, _, _ => none
  | fuel + 1, current, acc =>
      if s.root = some current then
        some (acc ++ [(nthNode s.nodes current).hash])
      else
        match getSibling s current, (nthNode s.nodes current).parent with
        | none, _ => none
        | some _, none => none
        | some sib, some p =>
            proofLoopF s fuel p (acc ++ [(nthNode s.nodes sib).hash])

/-- `generateProof` (lines 118-129): walk from the target node to the
root collecting sibling hashes, then append the root hash. -/
def generateProof (s : MTree) (nid : Nat) : Option (List Digest) :=
  proofLoopF s (s.nodes.length + 1) nid []

/-- Rehashing a proof chain bottom-up: starting from the digest of the
target leaf, combine with each sibling digest in turn; the flag tells on
which side the sibling sits (`true`: sibling is the left child). -/
def hashUp (start : Digest) (steps : List (Bool × Digest)) : Digest :=
  steps.foldl
    (fun cur st => if st.1 then Digest.node st.2 cur else Digest.node cur st.2)
    start

/-- Scenario of `main` (lines 137-160): the four leaves are allocated
first (arena indices 0-3) and then pushed one at a time. -/
def mainDemoTree : MTree :=
  { nodes := [MerkleNode.mkLeaf "1 transaction", MerkleNode.mkLeaf "2 transaction",
              MerkleNode.mkLeaf "3 transaction", MerkleNode.mkLeaf "4 transaction"],
    root := none, frontier := [] }

/-- C6: inserting the four demo leaves in order yields frontier occupancy
{1}, {2}, {1,2}, {4} after the successive insertions, and at that point
`generateProof` on the first leaf returns exactly 3 digests. -/
theorem demo_scenario :
    (push_back mainDemoTree 0).map frontierKeys = some [1] ∧
    ((push_back mainDemoTree 0).bind (fun s => push_back s 1)).map frontierKeys
      = some [2] ∧
    ((push_back mainDemoTree 0).bind (fun s => push_back s 1)
      |>.bind (fun s => push_back s 2)).map frontierKeys = some [1, 2] ∧
    ((push_back mainDemoTree 0).bind (fun s => push_back s 1)
      |>.bind (fun s => push_back s 2)
      |>.bind (fun s => push_back s 3)).map frontierKeys = some [4] ∧
    ((push_back mainDemoTree 0).bind (fun s => push_back s 1)
      |>.bind (fun s => push_back s 2)
      |>.bind (fun s => push_back s 3)
      |>.bind (fun s => generateProof s 0)).map List.length = some 3 :=
  ⟨rfl, rfl, rfl, rfl, rfl⟩

/-- C1 check: six insertions succeed, but on the seventh the frontier has
the three size-classes 1, 2, 4, the level sequence has odd length 3, and
root recomputation dereferences the null right pointer: the run crashes. -/
theorem degenerate_merge_crashes :
    (insertAll emptyTree ["a", "b", "c", "d", "e", "f"]).isSome = true ∧
    frontierKeys (insertAllCore emptyTree ["a", "b", "c", "d", "e", "f", "g"])
      = [1, 2, 4] ∧
    updateRoot (insertAllCore emptyTree ["a", "b", "c", "d", "e", "f", "g"])
      = none ∧
    insertAll emptyTree ["a", "b", "c", "d", "e", "f", "g"] = none :=
  ⟨rfl, rfl, rfl, rfl⟩

/-- C2 check: the seventh insertion crashes, so `insert` is not free of
failure: after six successful insertions, inserting one more value
dereferences a null pointer during root recomputation. -/
theorem seventh_insert_fails :
    ((insertAll emptyTree ["a", "b", "c", "d", "e", "f"]).bind
        (fun s => insertLeaf s "g")) = none ∧
    ∃ s, insertAll emptyTree ["a", "b", "c", "d", "e", "f"] = some s :=
  ⟨rfl, _, rfl⟩

/-- C4 check: `generateProof` on a node that is not connected to the root
dereferences the null sibling pointer instead of reporting an error: on the
empty tree with a never-inserted leaf, and on a two-leaf tree with an extra
never-inserted leaf, the traversal crashes (`none`). -/
theorem proof_on_disconnected_crashes :
    generateProof { nodes := [MerkleNode.mkLeaf "x"], root := none,
                    frontier := [] } 0 = none ∧
    ((insertAll emptyTree ["a", "b"]).map
      (fun s => generateProof { s with nodes := s.nodes ++ [MerkleNode.mkLeaf "x"] }
        3)) = some none :=
  ⟨rfl, rfl⟩

/-- C7 counterexample: the parent link of node 3 (the third inserted leaf)
is `some 4` after the third insertion but `some 6` after the fourth: the
fourth `push_back` reassigns an already-assigned parent link. -/
theorem parent_link_reassigned :
    (insertAll emptyTree ["a", "b", "c"]).map
        (fun s => (nthNode s.nodes 3).parent) = some (some 4) ∧
    (insertAll emptyTree ["a", "b", "c", "d"]).map
        (fun s => (nthNode s.nodes 3).parent) = some (some 6) ∧
    (some (some 4) : Option (Option Nat)) ≠ some (some 6) :=
  ⟨rfl, rfl, by decide⟩

/-- C10: on any tree reached by at least one insertion, `generateProof`
applied to the root node itself returns the one-element sequence holding
the root digest: the sibling-collecting loop is never entered. -/
theorem proof_on_root_is_singleton (vs : List String) (s : MTree) (r : Nat)
    (h : insertAll emptyTree vs = some s) (hr : s.root = some r) :
    generateProof s r = some [(nthNode s.nodes r).hash] := by
  unfold generateProof
  simp [proofLoopF, hr]

/-- Witness for C10 at a concrete input: the one-insertion tree. -/
theorem proof_on_root_is_singleton_w :
    generateProof ((insertAll emptyTree ["a"]).getD emptyTree) 0
      = some [(nthNode ((insertAll emptyTree ["a"]).getD emptyTree).nodes 0).hash] :=
  proof_on_root_is_singleton ["a"] _ 0 rfl rfl

theorem mem_keys_frontierInsert (k v x : Nat) (fr : List (Nat × Nat)) :
    x ∈ (frontierInsert k v fr).map Prod.fst ↔ x = k ∨ x ∈ fr.map Prod.fst := by
  induction fr with
  | nil => simp [frontierInsert]
  | cons hd tl ih =>
      obtain ⟨k', v'⟩ := hd
      simp only [frontierInsert]
      split_ifs with h1 h2
      · simp
      · subst h2
        simp only [List.map_cons, List.mem_cons]
        tauto
      · simp only [List.map_cons, List.mem_cons, ih]
        tauto

theorem mem_keys_frontierErase (k x : Nat) (fr : List (Nat × Nat)) :
    x ∈ (frontierErase fr k).map Prod.fst ↔ x ∈ fr.map Prod.fst ∧ x ≠ k := by
  induction fr with
  | nil => simp [frontierErase]
  | cons hd tl ih =>
      obtain ⟨k', v'⟩ := hd
      simp only [frontierErase]
      split_ifs with h
      · subst h
        rw [ih]
        simp only [List.map_cons, List.mem_cons]
        constructor
        · rintro ⟨hx, hk⟩
          exact ⟨Or.inr hx, hk⟩
        · rintro ⟨rfl | hx, hk⟩
          · exact absurd rfl hk
          · exact ⟨hx, hk⟩
      · simp only [List.map_cons, List.mem_cons, ih]
        constructor
        · rintro (rfl | ⟨hx, hk⟩)
          · exact ⟨Or.inl rfl, fun hxk => h (hxk ▸ rfl)⟩
          · exact ⟨Or.inr hx, hk⟩
        · rintro ⟨rfl | hx, hk⟩
          · exact Or.inl rfl
          · exact Or.inr ⟨hx, hk⟩

theorem frontierLookup_none_iff (fr : List (Nat × Nat)) (k : Nat) :
    frontierLookup fr k = none ↔ k ∉ fr.map Prod.fst := by
  induction fr with
  | nil => simp [frontierLookup]
  | cons hd tl ih =>
      obtain ⟨k', v'⟩ := hd
      simp only [frontierLookup]
      split_ifs with h
      · subst h
        simp
      · simp only [List.map_cons, List.mem_cons, ih]
        constructor
        · intro hk hmem
          rcases hmem with hmem | hmem
          · exact h hmem.symm
          · exact hk hmem
        · intro hk hmem
          exact hk (Or.inr hmem)

theorem frontierErase_length_le (fr : List (Nat × Nat)) (k : Nat) :
    (frontierErase fr k).length ≤ fr.length := by
  induction fr with
  | nil => simp [frontierErase]
  | cons hd tl ih =>
      obtain ⟨k', v'⟩ := hd
      simp only [frontierErase]
      split_ifs with h <;> simp only [List.length_cons] <;> omega

theorem frontierErase_length_lt (fr : List (Nat × Nat)) (k : Nat)
    (h : k ∈ fr.map Prod.fst) : (frontierErase fr k).length < fr.length := by
  induction fr with
  | nil => simp at h
  | cons hd tl ih =>
      obtain ⟨k', v'⟩ := hd
      by_cases hk : k' = k
      · subst hk
        simp only [frontierErase, if_pos rfl, List.length_cons]
        exact Nat.lt_succ_of_le (frontierErase_length_le tl k')
      · simp only [List.map_cons, List.mem_cons] at h
        rcases h with h | h
        · exact absurd h.symm hk
        · simp only [frontierErase, if_neg hk, List.length_cons]
          exact Nat.succ_lt_succ (ih h)

/-! Bit arithmetic for the binary-counter argument. -/

theorem low_mod_lt_pow {m j : Nat} (hm : m.testBit j = false) :
    m % 2 ^ (j + 1) < 2 ^ j := by
  have hrlt : m % 2 ^ (j + 1) < 2 ^ (j + 1) := Nat.mod_lt _ (Nat.two_pow_pos _)
  have hrj : (m % 2 ^ (j + 1)).testBit j = false := by
    rw [Nat.testBit_mod_two_pow]
    simp [hm]
  by_contra hge
  push_neg at hge
  have hdiv2 : m % 2 ^ (j + 1) / 2 ^ j < 2 := by
    rw [Nat.div_lt_iff_lt_mul (Nat.two_pow_pos j)]
    calc m % 2 ^ (j + 1) < 2 ^ (j + 1) := hrlt
    _ = 2 * 2 ^ j := by ring
  have hdiv1 : 1 ≤ m % 2 ^ (j + 1) / 2 ^ j :=
    (Nat.one_le_div_iff (Nat.two_pow_pos j)).mpr hge
  have hdiv : m % 2 ^ (j + 1) / 2 ^ j = 1 := by omega
  rw [Nat.testBit_to_div_mod, hdiv] at hrj
  simp at hrj

theorem testBit_add_pow {m j : Nat} (hm : m.testBit j = false) (i : Nat) :
    (m + 2 ^ j).testBit i = if i = j then true else m.testBit i := by
  have hq := Nat.div_add_mod m (2 ^ (j + 1))
  have hrj' : m % 2 ^ (j + 1) < 2 ^ j := low_mod_lt_pow hm
  have hm' : m = 2 ^ (j + 1) * (m / 2 ^ (j + 1)) + m % 2 ^ (j + 1) := hq.symm
  have hsum : m + 2 ^ j
      = 2 ^ (j + 1) * (m / 2 ^ (j + 1)) + (m % 2 ^ (j + 1) + 2 ^ j) := by
    omega
  have hlt2 : m % 2 ^ (j + 1) + 2 ^ j < 2 ^ (j + 1) := by
    have h2 : (2:Nat) ^ (j + 1) = 2 ^ j + 2 ^ j := by ring
    omega
  rw [hsum, Nat.testBit_mul_pow_two_add _ hlt2]
  rcases Nat.lt_trichotomy i j with hij | rfl | hij
  · rw [if_pos (by omega), if_neg (by omega)]
    rw [Nat.add_comm, Nat.testBit_two_pow_add_gt hij]
    conv_rhs => rw [hm']
    rw [Nat.testBit_mul_pow_two_add _ (Nat.mod_lt _ (Nat.two_pow_pos _)),
      if_pos (by omega)]
  · rw [if_pos (by omega), if_pos rfl]
    have h1 : (m % 2 ^ (i + 1) + 2 ^ i) / 2 ^ i = 1 := by
      rw [Nat.add_div_right _ (Nat.two_pow_pos i), Nat.div_eq_of_lt hrj']
    rw [Nat.testBit_to_div_mod, h1]
    simp
  · rw [if_neg (by omega), if_neg (by omega)]
    conv_rhs => rw [hm']
    rw [Nat.testBit_mul_pow_two_add _ (Nat.mod_lt _ (Nat.two_pow_pos _)),
      if_neg (by omega)]

theorem low_mod_eq_pow {m j : Nat} (hm : m.testBit j = true)
    (hlow : ∀ i, i < j → m.testBit i = false) : m % 2 ^ (j + 1) = 2 ^ j := by
  apply Nat.eq_of_testBit_eq
  intro i
  rcases Nat.lt_trichotomy i j with hij | rfl | hij
  · rw [Nat.testBit_mod_two_pow]
    simp only [hlow i hij]
    rw [Nat.testBit_two_pow_of_ne (by omega)]
    simp
  · rw [Nat.testBit_mod_two_pow]
    simp [hm, Nat.testBit_two_pow_self]
  · rw [Nat.testBit_two_pow_of_ne (by omega)]
    exact Nat.testBit_lt_two_pow
      (lt_of_lt_of_le (Nat.mod_lt _ (Nat.two_pow_pos _))
        (Nat.pow_le_pow_right (by omega) (by omega)))

theorem testBit_sub_pow {m j : Nat} (hm : m.testBit j = true)
    (hlow : ∀ i, i < j → m.testBit i = false) (i : Nat) :
    (m - 2 ^ j).testBit i = if i = j then false else m.testBit i := by
  have hq := Nat.div_add_mod m (2 ^ (j + 1))
  have hmod := low_mod_eq_pow hm hlow
  have hsub : m - 2 ^ j = 2 ^ (j + 1) * (m / 2 ^ (j + 1)) := by omega
  have hm' : m = 2 ^ (j + 1) * (m / 2 ^ (j + 1)) + 2 ^ j := by omega
  have hjlt : (2:Nat) ^ j < 2 ^ (j + 1) := by
    have h2 : (2:Nat) ^ (j + 1) = 2 ^ j + 2 ^ j := by ring
    have := Nat.two_pow_pos j
    omega
  rw [hsub, Nat.testBit_mul_pow_two]
  rcases Nat.lt_trichotomy i j with hij | rfl | hij
  · rw [if_neg (by omega)]
    simp [show ¬ (j + 1 ≤ i) by omega, hlow i hij]
  · rw [if_pos rfl]
    simp [show ¬ (i + 1 ≤ i) by omega]
  · rw [if_neg (by omega)]
    conv_rhs => rw [hm']
    rw [Nat.testBit_mul_pow_two_add _ hjlt, if_neg (by omega)]
    simp [show j + 1 ≤ i by omega]

/-- Key invariant of the merge loop: starting from size-class `2 ^ j` on a
frontier whose occupied keys are the powers of two of the set bits of `m`
(all bits below `j` clear), the loop followed by the final store yields a
frontier whose occupied keys are those of `m + 2 ^ j`. -/
theorem pushLoopF_keys :
    ∀ (fuel : Nat) (ns : List MerkleNode) (c j m : Nat)
      (fr : List (Nat × Nat)),
      fr.length < fuel →
      (∀ i, i < j → m.testBit i = false) →
      (∀ k, k ∈ fr.map Prod.fst ↔ ∃ i, m.testBit i = true ∧ k = 2 ^ i) →
      ∀ k,
        k ∈ (frontierInsert (pushLoopF fuel ns c (2 ^ j) fr).2.2.1
              (pushLoopF fuel ns c (2 ^ j) fr).2.1
              (pushLoopF fuel ns c (2 ^ j) fr).2.2.2).map Prod.fst
          ↔ ∃ i, (m + 2 ^ j).testBit i = true ∧ k = 2 ^ i := by
  intro fuel
  induction fuel with
  | zero => intro ns c j m fr hfuel; omega
  | succ fuel ih =>
      intro ns c j m fr hfuel hlow hkeys k
      have hbitj : m.testBit j = true ↔ (2 ^ j) ∈ fr.map Prod.fst := by
        rw [hkeys (2 ^ j)]
        constructor
        · intro h; exact ⟨j, h, rfl⟩
        · rintro ⟨i, hbit, hpow⟩
          have : j = i := Nat.pow_right_injective (by omega) hpow
          exact this ▸ hbit
      rcases hlk : frontierLookup fr (2 ^ j) with _ | fid
      · -- size-class not occupied: the loop exits and stores the carry
        have hnotmem : (2 ^ j) ∉ fr.map Prod.fst :=
          (frontierLookup_none_iff fr (2 ^ j)).mp hlk
        have hbit : m.testBit j = false := by
          rcases h : m.testBit j with _ | _
          · rfl
          · exact absurd (hbitj.mp h) hnotmem
        simp only [pushLoopF, hlk]
        rw [mem_keys_frontierInsert, hkeys k]
        constructor
        · rintro (rfl | ⟨i, hbi, rfl⟩)
          · exact ⟨j, by rw [testBit_add_pow hbit]; simp, rfl⟩
          · refine ⟨i, ?_, rfl⟩
            rw [testBit_add_pow hbit]
            rcases Nat.decEq i j with hij | hij
            · simp [hij, hbi]
            · simp [hij, hbi]
        · rintro ⟨i, hbi, rfl⟩
          rw [testBit_add_pow hbit] at hbi
          by_cases hij : i = j
          · exact Or.inl (by rw [hij])
          · rw [if_neg hij] at hbi
            exact Or.inr ⟨i, hbi, rfl⟩
      · -- size-class occupied: merge, erase, continue at the doubled size
        have hmem : (2 ^ j) ∈ fr.map Prod.fst := by
          by_contra hn
          rw [← frontierLookup_none_iff] at hn
          rw [hn] at hlk
          exact Option.noConfusion hlk
        have hbit : m.testBit j = true := hbitj.mpr hmem
        have hge : 2 ^ j ≤ m := Nat.testBit_implies_ge hbit
        simp only [pushLoopF, hlk]
        have hlen : (frontierErase fr (2 ^ j)).length < fuel :=
          lt_of_lt_of_le (frontierErase_length_lt fr _ hmem)
            (Nat.lt_succ_iff.mp hfuel)
        have hpow : (2 : Nat) ^ j * 2 = 2 ^ (j + 1) := by ring
        have hlow' : ∀ i, i < j + 1 → (m - 2 ^ j).testBit i = false := by
          intro i hij
          rw [testBit_sub_pow hbit hlow]
          by_cases h : i = j
          · simp [h]
          · rw [if_neg h]
            exact hlow i (by omega)
        have hkeys' : ∀ k, k ∈ (frontierErase fr (2 ^ j)).map Prod.fst
            ↔ ∃ i, (m - 2 ^ j).testBit i = true ∧ k = 2 ^ i := by
          intro x
          rw [mem_keys_frontierErase, hkeys x]
          constructor
          · rintro ⟨⟨i, hbi, rfl⟩, hne⟩
            refine ⟨i, ?_, rfl⟩
            rw [testBit_sub_pow hbit hlow]
            have hij : i ≠ j := fun h => hne (by rw [h])
            rw [if_neg hij]
            exact hbi
          · rintro ⟨i, hbi, rfl⟩
            rw [testBit_sub_pow hbit hlow] at hbi
            by_cases hij : i = j
            · rw [if_pos hij] at hbi
              exact Bool.noConfusion hbi
            · rw [if_neg hij] at hbi
              exact ⟨⟨i, hbi, rfl⟩, fun h => hij (Nat.pow_right_injective (by omega) h)⟩
        rw [hpow]
        have harith : m - 2 ^ j + 2 ^ (j + 1) = m + 2 ^ j := by
          have h2 : (2:Nat) ^ (j + 1) = 2 ^ j + 2 ^ j := by ring
          omega
        have hrec := ih
          (setParent (setParent (ns ++ [combineNodes ns c fid]) c ns.length)
            fid ns.length)
          ns.length (j + 1) (m - 2 ^ j) (frontierErase fr (2 ^ j))
          hlen hlow' hkeys' k
        rw [harith] at hrec
        exact hrec

/-- One frontier-phase insertion advances the occupied keys from the set
bits of `n` to those of `n + 1`. -/
theorem insertLeafCore_keys (s : MTree) (n : Nat) (v : String)
    (hkeys : ∀ k, k ∈ frontierKeys s ↔ ∃ i, n.testBit i = true ∧ k = 2 ^ i) :
    ∀ k, k ∈ frontierKeys (insertLeafCore s v)
      ↔ ∃ i, (n + 1).testBit i = true ∧ k = 2 ^ i := by
  intro k
  have h := pushLoopF_keys (s.frontier.length + 1)
    (s.nodes ++ [MerkleNode.mkLeaf v]) s.nodes.length 0 n s.frontier
    (by omega) (by omega) hkeys k
  simpa [insertLeafCore, pushBackCore, pushLoop, frontierKeys] using h

/-- `updateRoot` never touches the frontier map. -/
theorem updateRoot_frontier {s s' : MTree} (h : updateRoot s = some s') :
    s'.frontier = s.frontier := by
  unfold updateRoot at h
  rcases hu : updateLoopF (s.frontier.length + 1) s.nodes
      (s.frontier.map Prod.snd) with _ | ⟨ns, r⟩
  · rw [hu] at h
    exact Option.noConfusion h
  · rw [hu] at h
    cases h
    rfl

/-- A full insertion has the same frontier as its frontier phase. -/
theorem insertLeaf_frontier {s s' : MTree} {v : String}
    (h : insertLeaf s v = some s') :
    s'.frontier = (insertLeafCore s v).frontier :=
  updateRoot_frontier h

/-- The frontier-key invariant carried along any run of full insertions. -/
theorem insertAll_keys_aux :
    ∀ (vs : List String) (s : MTree) (n : Nat) (s' : MTree),
      insertAll s vs = some s' →
      (∀ k, k ∈ frontierKeys s ↔ ∃ i, n.testBit i = true ∧ k = 2 ^ i) →
      ∀ k, k ∈ frontierKeys s'
        ↔ ∃ i, (n + vs.length).testBit i = true ∧ k = 2 ^ i := by
  intro vs
  induction vs with
  | nil =>
      intro s n s' h hkeys
      simp only [insertAll] at h
      cases h
      simpa using hkeys
  | cons v vs ih =>
      intro s n s' h hkeys
      simp only [insertAll] at h
      rcases h1 : insertLeaf s v with _ | s1
      · rw [h1] at h
        exact Option.noConfusion h
      · rw [h1] at h
        have hk1 : ∀ k, k ∈ frontierKeys s1
            ↔ ∃ i, (n + 1).testBit i = true ∧ k = 2 ^ i := by
          intro k
          have hf : frontierKeys s1 = frontierKeys (insertLeafCore s v) := by
            unfold frontierKeys
            rw [insertLeaf_frontier h1]
          rw [hf]
          exact insertLeafCore_keys s n v hkeys k
        have := ih s1 (n + 1) s' h hk1
        intro k
        rw [this k]
        have : n + 1 + vs.length = n + (vs.length + 1) := by omega
        rw [this]
        simp

/-- The same invariant for the frontier phases alone (total, all lengths). -/
theorem insertAllCore_keys_aux :
    ∀ (vs : List String) (s : MTree) (n : Nat),
      (∀ k, k ∈ frontierKeys s ↔ ∃ i, n.testBit i = true ∧ k = 2 ^ i) →
      ∀ k, k ∈ frontierKeys (insertAllCore s vs)
        ↔ ∃ i, (n + vs.length).testBit i = true ∧ k = 2 ^ i := by
  intro vs
  induction vs with
  | nil =>
      intro s n hkeys
      simpa using hkeys
  | cons v vs ih =>
      intro s n hkeys k
      simp only [insertAllCore]
      rw [ih (insertLeafCore s v) (n + 1) (insertLeafCore_keys s n v hkeys) k]
      have : n + 1 + vs.length = n + (vs.length + 1) := by omega
      rw [this]
      simp

/-- C3: after `n` insertions the occupied frontier size-classes are exactly
the powers of two of the set bits of `n` — stated for the frontier phase of
any number of insertions, and for every completed run of full insertions. -/
theorem frontier_occupancy_binary :
    (∀ (vs : List String) (k : Nat),
        k ∈ frontierKeys (insertAllCore emptyTree vs)
          ↔ ∃ i, (vs.length).testBit i = true ∧ k = 2 ^ i) ∧
    (∀ (vs : List String) (s : MTree), insertAll emptyTree vs = some s →
        ∀ k, k ∈ frontierKeys s
          ↔ ∃ i, (vs.length).testBit i = true ∧ k = 2 ^ i) := by
  have hempty : ∀ k, k ∈ frontierKeys emptyTree
      ↔ ∃ i, (0 : Nat).testBit i = true ∧ k = 2 ^ i := by
    intro k
    simp [frontierKeys, emptyTree]
  constructor
  · intro vs k
    have := insertAllCore_keys_aux vs emptyTree 0 hempty k
    simpa using this
  · intro vs s h k
    have := insertAll_keys_aux vs emptyTree 0 s h hempty k
    simpa using this

/-- Witness for C3 at a concrete input: after one insertion size-class 1
is occupied. -/
theorem frontier_occupancy_binary_w :
    1 ∈ frontierKeys ((insertAll emptyTree ["a"]).getD emptyTree) :=
  (frontier_occupancy_binary.2 ["a"] _ rfl 1).mpr ⟨0, by decide, by decide⟩

/-! Explicit intermediate states.  `Sk v1 .. vk` below is the tree state
after inserting the k values, written out node by node; the lemmas
`insertLeaf_S0` .. `insertLeaf_S6` verify by computation that each
insertion carries one state to the next (and that the seventh crashes),
so that later theorems can reason on explicit states. -/

def mkN (l r p : Option Nat) (h : Digest) (v : Option String) : MerkleNode :=
  { left := l, right := r, parent := p, hash := h, value := v }

def S1 (a : String) : MTree :=
  { nodes := [
    mkN (none) (none) (none)
      (Digest.leaf a)
      (some a)
    ],
    root := some 0,
    frontier := [(1, 0)] }

def S2 (a b : String) : MTree :=
  { nodes := [
    mkN (none) (none) (some 2)
      (Digest.leaf a)
      (some a),
    mkN (none) (none) (some 2)
      (Digest.leaf b)
      (some b),
    mkN (some 1) (some 0) (none)
      (Digest.node (Digest.leaf b) (Digest.leaf a))
      (none)
    ],
    root := some 2,
    frontier := [(2, 2)] }

def S3 (a b c : String) : MTree :=
  { nodes := [
    mkN (none) (none) (some 2)
      (Digest.leaf a)
      (some a),
    mkN (none) (none) (some 2)
      (Digest.leaf b)
      (some b),
    mkN (some 1) (some 0) (some 4)
      (Digest.node (Digest.leaf b) (Digest.leaf a))
      (none),
    mkN (none) (none) (some 4)
      (Digest.leaf c)
      (some c),
    mkN (some 3) (some 2) (none)
      (Digest.node (Digest.leaf c) (Digest.node (Digest.leaf b) (Digest.leaf a)))
      (none)
    ],
    root := some 4,
    frontier := [(1, 3), (2, 2)] }

def S4 (a b c d : String) : MTree :=
  { nodes := [
    mkN (none) (none) (some 2)
      (Digest.leaf a)
      (some a),
    mkN (none) (none) (some 2)
      (Digest.leaf b)
      (some b),
    mkN (some 1) (some 0) (some 7)
      (Digest.node (Digest.leaf b) (Digest.leaf a))
      (none),
    mkN (none) (none) (some 6)
      (Digest.leaf c)
      (some c),
    mkN (some 3) (some 2) (none)
      (Digest.node (Digest.leaf c) (Digest.node (Digest.leaf b) (Digest.leaf a)))
      (none),
    mkN (none) (none) (some 6)
      (Digest.leaf d)
      (some d),
    mkN (some 5) (some 3) (some 7)
      (Digest.node (Digest.leaf d) (Digest.leaf c))
      (none),
    mkN (some 6) (some 2) (none)
      (Digest.node (Digest.node (Digest.leaf d) (Digest.leaf c)) (Digest.node (Digest.leaf b) (Digest.leaf a)))
      (none)
    ],
    root := some 7,
    frontier := [(4, 7)] }

def S5 (a b c d e : String) : MTree :=
  { nodes := [
    mkN (none) (none) (some 2)
      (Digest.leaf a)
      (some a),
    mkN (none) (none) (some 2)
      (Digest.leaf b)
      (some b),
    mkN (some 1) (some 0) (some 7)
      (Digest.node (Digest.leaf b) (Digest.leaf a))
      (none),
    mkN (none) (none) (some 6)
      (Digest.leaf c)
      (some c),
    mkN (some 3) (some 2) (none)
      (Digest.node (Digest.leaf c) (Digest.node (Digest.leaf b) (Digest.leaf a)))
      (none),
    mkN (none) (none) (some 6)
      (Digest.leaf d)
      (some d),
    mkN (some 5) (some 3) (some 7)
      (Digest.node (Digest.leaf d) (Digest.leaf c))
      (none),
    mkN (some 6) (some 2) (some 9)
      (Digest.node (Digest.node (Digest.leaf d) (Digest.leaf c)) (Digest.node (Digest.leaf b) (Digest.leaf a)))
      (none),
    mkN (none) (none) (some 9)
      (Digest.leaf e)
      (some e),
    mkN (some 8) (some 7) (none)
      (Digest.node (Digest.leaf e) (Digest.node (Digest.node (Digest.leaf d) (Digest.leaf c)) (Digest.node (Digest.leaf b) (Digest.leaf a))))
      (none)
    ],
    root := some 9,
    frontier := [(1, 8), (4, 7)] }

def S6 (a b c d e f : String) : MTree :=
  { nodes := [
    mkN (none) (none) (some 2)
      (Digest.leaf a)
      (some a),
    mkN (none) (none) (some 2)
      (Digest.leaf b)
      (some b),
    mkN (some 1) (some 0) (some 7)
      (Digest.node (Digest.leaf b) (Digest.leaf a))
      (none),
    mkN (none) (none) (some 6)
      (Digest.leaf c)
      (some c),
    mkN (some 3) (some 2) (none)
      (Digest.node (Digest.leaf c) (Digest.node (Digest.leaf b) (Digest.leaf a)))
      (none),
    mkN (none) (none) (some 6)
      (Digest.leaf d)
      (some d),
    mkN (some 5) (some 3) (some 7)
      (Digest.node (Digest.leaf d) (Digest.leaf c))
      (none),
    mkN (some 6) (some 2) (some 12)
      (Digest.node (Digest.node (Digest.leaf d) (Digest.leaf c)) (Digest.node (Digest.leaf b) (Digest.leaf a)))
      (none),
    mkN (none) (none) (some 11)
      (Digest.leaf e)
      (some e),
    mkN (some 8) (some 7) (none)
      (Digest.node (Digest.leaf e) (Digest.node (Digest.node (Digest.leaf d) (Digest.leaf c)) (Digest.node (Digest.leaf b) (Digest.leaf a))))
      (none),
    mkN (none) (none) (some 11)
      (Digest.leaf f)
      (some f),
    mkN (some 10) (some 8) (some 12)
      (Digest.node (Digest.leaf f) (Digest.leaf e))
      (none),
    mkN (some 11) (some 7) (none)
      (Digest.node (Digest.node (Digest.leaf f) (Digest.leaf e)) (Digest.node (Digest.node (Digest.leaf d) (Digest.leaf c)) (Digest.node (Digest.leaf b) (Digest.leaf a))))
      (none)
    ],
    root := some 12,
    frontier := [(2, 11), (4, 7)] }


theorem insertLeaf_S0 (a : String) : insertLeaf emptyTree a = some (S1 a) :=
  rfl

theorem insertLeaf_S1 (a b : String) : insertLeaf (S1 a) b = some (S2 a b) :=
  rfl

theorem insertLeaf_S2 (a b c : String) :
    insertLeaf (S2 a b) c = some (S3 a b c) :=
  rfl

theorem insertLeaf_S3 (a b c d : String) :
    insertLeaf (S3 a b c) d = some (S4 a b c d) :=
  rfl

theorem insertLeaf_S4 (a b c d e : String) :
    insertLeaf (S4 a b c d) e = some (S5 a b c d e) :=
  rfl

theorem insertLeaf_S5 (a b c d e f : String) :
    insertLeaf (S5 a b c d e) f = some (S6 a b c d e f) :=
  rfl

theorem insertLeaf_S6 (a b c d e f g : String) :
    insertLeaf (S6 a b c d e f) g = none :=
  rfl

theorem insertAll_cons_some {s s' : MTree} {v : String} {vs : List String}
    (h : insertLeaf s v = some s') : insertAll s (v :: vs) = insertAll s' vs := by
  simp only [insertAll, h]

theorem insertAll_cons_none {s : MTree} {v : String} {vs : List String}
    (h : insertLeaf s v = none) : insertAll s (v :: vs) = none := by
  simp only [insertAll, h]

theorem insertAll_eval1 (a : String) :
    insertAll emptyTree [a] = some (S1 a) := by
  rw [insertAll_cons_some (insertLeaf_S0 a)]
  rfl

theorem insertAll_eval2 (a b : String) :
    insertAll emptyTree [a, b] = some (S2 a b) := by
  rw [insertAll_cons_some (insertLeaf_S0 a),
    insertAll_cons_some (insertLeaf_S1 a b)]
  rfl

theorem insertAll_eval3 (a b c : String) :
    insertAll emptyTree [a, b, c] = some (S3 a b c) := by
  rw [insertAll_cons_some (insertLeaf_S0 a),
    insertAll_cons_some (insertLeaf_S1 a b),
    insertAll_cons_some (insertLeaf_S2 a b c)]
  rfl

theorem insertAll_eval4 (a b c d : String) :
    insertAll emptyTree [a, b, c, d] = some (S4 a b c d) := by
  rw [insertAll_cons_some (insertLeaf_S0 a),
    insertAll_cons_some (insertLeaf_S1 a b),
    insertAll_cons_some (insertLeaf_S2 a b c),
    insertAll_cons_some (insertLeaf_S3 a b c d)]
  rfl

theorem insertAll_eval5 (a b c d e : String) :
    insertAll emptyTree [a, b, c, d, e] = some (S5 a b c d e) := by
  rw [insertAll_cons_some (insertLeaf_S0 a),
    insertAll_cons_some (insertLeaf_S1 a b),
    insertAll_cons_some (insertLeaf_S2 a b c),
    insertAll_cons_some (insertLeaf_S3 a b c d),
    insertAll_cons_some (insertLeaf_S4 a b c d e)]
  rfl

theorem insertAll_eval6 (a b c d e f : String) :
    insertAll emptyTree [a, b, c, d, e, f] = some (S6 a b c d e f) := by
  rw [insertAll_cons_some (insertLeaf_S0 a),
    insertAll_cons_some (insertLeaf_S1 a b),
    insertAll_cons_some (insertLeaf_S2 a b c),
    insertAll_cons_some (insertLeaf_S3 a b c d),
    insertAll_cons_some (insertLeaf_S4 a b c d e),
    insertAll_cons_some (insertLeaf_S5 a b c d e f)]
  rfl

/-- Any run of at least seven insertions crashes: the seventh insertion
reaches a frontier with the three size-classes 1, 2, 4 and `updateRoot`
dereferences the null sibling of the odd leftover. -/
theorem insertAll_none_of_seven (a b c d e f g : String) (vs : List String) :
    insertAll emptyTree (a :: b :: c :: d :: e :: f :: g :: vs) = none := by
  rw [insertAll_cons_some (insertLeaf_S0 a),
    insertAll_cons_some (insertLeaf_S1 a b),
    insertAll_cons_some (insertLeaf_S2 a b c),
    insertAll_cons_some (insertLeaf_S3 a b c d),
    insertAll_cons_some (insertLeaf_S4 a b c d e),
    insertAll_cons_some (insertLeaf_S5 a b c d e f)]
  exact insertAll_cons_none (insertLeaf_S6 a b c d e f g)

/-- C5: for every leaf node in the arena of a completed run (that is, every
leaf ever inserted), `generateProof` succeeds with a non-empty digest
sequence ending in the current root digest, and rehashing up the chain from
the digest of the leaf with the returned sibling digests (each on the side
recorded by the matching entry of `sides`) reproduces the root digest. -/
theorem proof_validity (vs : List String) (s : MTree)
    (h : insertAll emptyTree vs = some s) (i : Nat)
    (hlen : i < s.nodes.length)
    (hval : (nthNode s.nodes i).value.isSome = true) :
    ∃ pf r sides,
      generateProof s i = some pf ∧ s.root = some r ∧ pf ≠ [] ∧
      pf.getLast? = some (nthNode s.nodes r).hash ∧
      List.length sides + 1 = pf.length ∧
      hashUp (nthNode s.nodes i).hash (List.zip sides pf.dropLast)
        = (nthNode s.nodes r).hash := by
  rcases vs with _ | ⟨a, vs⟩
  · simp only [insertAll] at h
    cases h
    exact Bool.noConfusion hval
  rcases vs with _ | ⟨b, vs⟩
  · rw [insertAll_eval1 a] at h
    cases h
    have hi : i < 1 := hlen
    interval_cases i
    · exact ⟨_, 0, [], rfl, rfl, by simp, rfl, rfl, rfl⟩
  rcases vs with _ | ⟨c, vs⟩
  · rw [insertAll_eval2 a b] at h
    cases h
    have hi : i < 3 := hlen
    interval_cases i
    · exact ⟨_, 2, [true], rfl, rfl, by simp, rfl, rfl, rfl⟩
    · exact ⟨_, 2, [false], rfl, rfl, by simp, rfl, rfl, rfl⟩
    · exact Bool.noConfusion hval
  rcases vs with _ | ⟨d, vs⟩
  · rw [insertAll_eval3 a b c] at h
    cases h
    have hi : i < 5 := hlen
    interval_cases i
    · exact ⟨_, 4, [true, true], rfl, rfl, by simp, rfl, rfl, rfl⟩
    · exact ⟨_, 4, [false, true], rfl, rfl, by simp, rfl, rfl, rfl⟩
    · exact Bool.noConfusion hval
    · exact ⟨_, 4, [false], rfl, rfl, by simp, rfl, rfl, rfl⟩
    · exact Bool.noConfusion hval
  rcases vs with _ | ⟨e, vs⟩
  · rw [insertAll_eval4 a b c d] at h
    cases h
    have hi : i < 8 := hlen
    interval_cases i
    · exact ⟨_, 7, [true, true], rfl, rfl, by simp, rfl, rfl, rfl⟩
    · exact ⟨_, 7, [false, true], rfl, rfl, by simp, rfl, rfl, rfl⟩
    · exact Bool.noConfusion hval
    · exact ⟨_, 7, [true, false], rfl, rfl, by simp, rfl, rfl, rfl⟩
    · exact Bool.noConfusion hval
    · exact ⟨_, 7, [false, false], rfl, rfl, by simp, rfl, rfl, rfl⟩
    · exact Bool.noConfusion hval
    · exact Bool.noConfusion hval
  rcases vs with _ | ⟨f, vs⟩
  · rw [insertAll_eval5 a b c d e] at h
    cases h
    have hi : i < 10 := hlen
    interval_cases i
    · exact ⟨_, 9, [true, true, true], rfl, rfl, by simp, rfl, rfl, rfl⟩
    · exact ⟨_, 9, [false, true, true], rfl, rfl, by simp, rfl, rfl, rfl⟩
    · exact Bool.noConfusion hval
    · exact ⟨_, 9, [true, false, true], rfl, rfl, by simp, rfl, rfl, rfl⟩
    · exact Bool.noConfusion hval
    · exact ⟨_, 9, [false, false, true], rfl, rfl, by simp, rfl, rfl, rfl⟩
    · exact Bool.noConfusion hval
    · exact Bool.noConfusion hval
    · exact ⟨_, 9, [false], rfl, rfl, by simp, rfl, rfl, rfl⟩
    · exact Bool.noConfusion hval
  rcases vs with _ | ⟨g, vs⟩
  · rw [insertAll_eval6 a b c d e f] at h
    cases h
    have hi : i < 13 := hlen
    interval_cases i
    · exact ⟨_, 12, [true, true, true], rfl, rfl, by simp, rfl, rfl, rfl⟩
    · exact ⟨_, 12, [false, true, true], rfl, rfl, by simp, rfl, rfl, rfl⟩
    · exact Bool.noConfusion hval
    · exact ⟨_, 12, [true, false, true], rfl, rfl, by simp, rfl, rfl, rfl⟩
    · exact Bool.noConfusion hval
    · exact ⟨_, 12, [false, false, true], rfl, rfl, by simp, rfl, rfl, rfl⟩
    · exact Bool.noConfusion hval
    · exact Bool.noConfusion hval
    · exact ⟨_, 12, [true, false], rfl, rfl, by simp, rfl, rfl, rfl⟩
    · exact Bool.noConfusion hval
    · exact ⟨_, 12, [false, false], rfl, rfl, by simp, rfl, rfl, rfl⟩
    · exact Bool.noConfusion hval
    · exact Bool.noConfusion hval
  rw [insertAll_none_of_seven a b c d e f g vs] at h
  exact Option.noConfusion h

/-- Witness for C5 at a concrete input: the one-insertion tree. -/
theorem proof_validity_w :
    ∃ pf r sides,
      generateProof (S1 "a") 0 = some pf ∧ (S1 "a").root = some r ∧ pf ≠ [] ∧
      pf.getLast? = some (nthNode (S1 "a").nodes r).hash ∧
      List.length sides + 1 = pf.length ∧
      hashUp (nthNode (S1 "a").nodes 0).hash (List.zip sides pf.dropLast)
        = (nthNode (S1 "a").nodes r).hash :=
  proof_validity ["a"] (S1 "a") (insertAll_eval1 "a") 0 (by decide) (by decide)

/-- A read past the end of the arena gives the placeholder node. -/
theorem nthNode_of_le (ns : List MerkleNode) :
    ∀ i, ns.length ≤ i → nthNode ns i = defaultNode := by
  induction ns with
  | nil => intro i _; rfl
  | cons n rest ih =>
      intro i hi
      cases i with
      | zero => simp at hi
      | succ j =>
          simp only [List.length_cons] at hi
          exact ih j (by omega)

/-- C7 amended: at any moment a node has at most one parent, and its parent
link always refers to a strictly later-created node; but the link is not
assigned exactly once — later insertions and root recomputations overwrite
it (`parent_link_reassigned`). -/
theorem parent_links_monotone (vs : List String) (s : MTree)
    (h : insertAll emptyTree vs = some s) (i p : Nat)
    (hp : (nthNode s.nodes i).parent = some p) :
    i < p ∧ p < s.nodes.length := by
  rcases vs with _ | ⟨a, vs⟩
  · simp only [insertAll] at h
    cases h
    rw [nthNode_of_le _ _ (Nat.zero_le i)] at hp
    exact Option.noConfusion hp
  rcases vs with _ | ⟨b, vs⟩
  · rw [insertAll_eval1 a] at h
    cases h
    have hL : (S1 a).nodes.length = 1 := rfl
    rw [hL]
    by_cases hi : i < 1
    · interval_cases i
      · exact Option.noConfusion hp
    · rw [nthNode_of_le _ _ (by omega : (S1 a).nodes.length ≤ i)] at hp
      exact Option.noConfusion hp
  rcases vs with _ | ⟨c, vs⟩
  · rw [insertAll_eval2 a b] at h
    cases h
    have hL : (S2 a b).nodes.length = 3 := rfl
    rw [hL]
    by_cases hi : i < 3
    · interval_cases i <;>
        first
          | exact Option.noConfusion hp
          | (have h2 := Option.some.inj hp; omega)
    · rw [nthNode_of_le _ _ (by omega : (S2 a b).nodes.length ≤ i)] at hp
      exact Option.noConfusion hp
  rcases vs with _ | ⟨d, vs⟩
  · rw [insertAll_eval3 a b c] at h
    cases h
    have hL : (S3 a b c).nodes.length = 5 := rfl
    rw [hL]
    by_cases hi : i < 5
    · interval_cases i <;>
        first
          | exact Option.noConfusion hp
          | (have h2 := Option.some.inj hp; omega)
    · rw [nthNode_of_le _ _ (by omega : (S3 a b c).nodes.length ≤ i)] at hp
      exact Option.noConfusion hp
  rcases vs with _ | ⟨e, vs⟩
  · rw [insertAll_eval4 a b c d] at h
    cases h
    have hL : (S4 a b c d).nodes.length = 8 := rfl
    rw [hL]
    by_cases hi : i < 8
    · interval_cases i <;>
        first
          | exact Option.noConfusion hp
          | (have h2 := Option.some.inj hp; omega)
    · rw [nthNode_of_le _ _ (by omega : (S4 a b c d).nodes.length ≤ i)] at hp
      exact Option.noConfusion hp
  rcases vs with _ | ⟨f, vs⟩
  · rw [insertAll_eval5 a b c d e] at h
    cases h
    have hL : (S5 a b c d e).nodes.length = 10 := rfl
    rw [hL]
    by_cases hi : i < 10
    · interval_cases i <;>
        first
          | exact Option.noConfusion hp
          | (have h2 := Option.some.inj hp; omega)
    · rw [nthNode_of_le _ _ (by omega : (S5 a b c d e).nodes.length ≤ i)] at hp
      exact Option.noConfusion hp
  rcases vs with _ | ⟨g, vs⟩
  · rw [insertAll_eval6 a b c d e f] at h
    cases h
    have hL : (S6 a b c d e f).nodes.length = 13 := rfl
    rw [hL]
    by_cases hi : i < 13
    · interval_cases i <;>
        first
          | exact Option.noConfusion hp
          | (have h2 := Option.some.inj hp; omega)
    · rw [nthNode_of_le _ _ (by omega : (S6 a b c d e f).nodes.length ≤ i)] at hp
      exact Option.noConfusion hp
  rw [insertAll_none_of_seven a b c d e f g vs] at h
  exact Option.noConfusion h

/-- Witness for the amended C7 at a concrete input: after two insertions
node 0 has parent 2, and indeed 0 < 2 < 3. -/
theorem parent_links_monotone_w : 0 < 2 ∧ 2 < (S2 "a" "b").nodes.length :=
  parent_links_monotone ["a", "b"] _ (insertAll_eval2 "a" "b") 0 2 rfl

/-- C8: on every state reached by at least one insertion, running
`updateRoot` again succeeds and leaves the root digest and the occupied
frontier size-classes unchanged. -/
theorem recompute_root_idempotent (vs : List String) (s : MTree)
    (h : insertAll emptyTree vs = some s) (hne : vs ≠ []) :
    ∃ s', updateRoot s = some s' ∧ rootDigest s' = rootDigest s ∧
      frontierKeys s' = frontierKeys s := by
  rcases vs with _ | ⟨a, vs⟩
  · exact absurd rfl hne
  rcases vs with _ | ⟨b, vs⟩
  · rw [insertAll_eval1 a] at h
    cases h
    exact ⟨_, rfl, rfl, rfl⟩
  rcases vs with _ | ⟨c, vs⟩
  · rw [insertAll_eval2 a b] at h
    cases h
    exact ⟨_, rfl, rfl, rfl⟩
  rcases vs with _ | ⟨d, vs⟩
  · rw [insertAll_eval3 a b c] at h
    cases h
    exact ⟨_, rfl, rfl, rfl⟩
  rcases vs with _ | ⟨e, vs⟩
  · rw [insertAll_eval4 a b c d] at h
    cases h
    exact ⟨_, rfl, rfl, rfl⟩
  rcases vs with _ | ⟨f, vs⟩
  · rw [insertAll_eval5 a b c d e] at h
    cases h
    exact ⟨_, rfl, rfl, rfl⟩
  rcases vs with _ | ⟨g, vs⟩
  · rw [insertAll_eval6 a b c d e f] at h
    cases h
    exact ⟨_, rfl, rfl, rfl⟩
  rw [insertAll_none_of_seven a b c d e f g vs] at h
  exact Option.noConfusion h

/-- Witness for C8 at a concrete input: the one-insertion tree. -/
theorem recompute_root_idempotent_w :
    ∃ s', updateRoot (S1 "a") = some s' ∧
      rootDigest s' = rootDigest (S1 "a") ∧
      frontierKeys s' = frontierKeys (S1 "a") :=
  recompute_root_idempotent ["a"] (S1 "a") (insertAll_eval1 "a") (by simp)

/-! Value-level mirror of the construction: the same merge-loop and
root-pairing algorithm computed on digests alone, with no node arena.  It
is used to state determinism: the root digest of a run is a function of
the inserted value sequence only, independent of node identities. -/

/-- Digest-level merge loop (the digest projection of `pushLoopF`). -/
def dPushLoopF : Nat → Digest → Nat → List (Nat × Digest) →
    Digest × Nat × List (Nat × Digest)
  | 0, d, size, fr => (d, size, fr)
  | fuel + 1, d, size, fr =>
      match frontierLookup fr size with
      | none => (d, size, fr)
      | some d' =>
          dPushLoopF fuel (Digest.node d d') (size * 2) (frontierErase fr size)

/-- Digest-level insertion (the digest projection of one `push_back`). -/
def dPush (fr : List (Nat × Digest)) (v : String) : List (Nat × Digest) :=
  match dPushLoopF (fr.length + 1) (Digest.leaf v) 1 fr with
  | (d, size, fr') => frontierInsert size d fr'

/-- Digest frontier of a value sequence. -/
def dFrontier (vs : List String) : List (Nat × Digest) :=
  vs.foldl dPush []

/-- Digest-level pairing pass (the digest projection of `pairPass`); a lone
leftover has no digest to pair with. -/
def dPairPass : List Digest → Option (List Digest)
  | [] => some []
  | [_] => none
  | x :: y :: rest => (dPairPass rest).map fun l => Digest.node x y :: l

/-- Digest-level root computation (the digest projection of
`updateLoopF`). -/
def dRootLoopF : Nat → List Digest → Option Digest
  | 0, _ => none
  | _ + 1, [] => none
  | _ + 1, [d] => some d
  | fuel + 1, x :: y :: rest =>
      match dPairPass (x :: y :: rest) with
      | none => none
      | some lvl => dRootLoopF fuel lvl

/-- The root digest determined by a value sequence alone. -/
def rootDigestOfValues (vs : List String) : Option Digest :=
  dRootLoopF ((dFrontier vs).length + 1) ((dFrontier vs).map Prod.snd)

/-- One-step evaluations of the digest-level insertion, keyed on the shape
of the digest frontier (only the keys drive the control flow). -/
theorem dPush_k0 (v : String) : dPush [] v = [(1, Digest.leaf v)] := rfl

theorem dPush_k1 (x : Digest) (v : String) :
    dPush [(1, x)] v = [(2, Digest.node (Digest.leaf v) x)] := rfl

theorem dPush_k2 (x : Digest) (v : String) :
    dPush [(2, x)] v = [(1, Digest.leaf v), (2, x)] := rfl

theorem dPush_k12 (x y : Digest) (v : String) :
    dPush [(1, x), (2, y)] v
      = [(4, Digest.node (Digest.node (Digest.leaf v) x) y)] := rfl

theorem dPush_k4 (x : Digest) (v : String) :
    dPush [(4, x)] v = [(1, Digest.leaf v), (4, x)] := rfl

theorem dPush_k14 (x y : Digest) (v : String) :
    dPush [(1, x), (4, y)] v
      = [(2, Digest.node (Digest.leaf v) x), (4, y)] := rfl

/-- The digest frontier and root digest of each short value sequence. -/
theorem rootValues_eval1 (a : String) :
    rootDigestOfValues [a] = some (Digest.leaf a) := by
  have hf : dFrontier [a] = [(1, Digest.leaf a)] := by
    simp only [dFrontier, List.foldl_cons, List.foldl_nil, dPush_k0]
  rw [rootDigestOfValues, hf]
  rfl

theorem rootValues_eval2 (a b : String) :
    rootDigestOfValues [a, b]
      = some (Digest.node (Digest.leaf b) (Digest.leaf a)) := by
  have hf : dFrontier [a, b]
      = [(2, Digest.node (Digest.leaf b) (Digest.leaf a))] := by
    simp only [dFrontier, List.foldl_cons, List.foldl_nil, dPush_k0, dPush_k1]
  rw [rootDigestOfValues, hf]
  rfl

theorem rootValues_eval3 (a b c : String) :
    rootDigestOfValues [a, b, c]
      = some (Digest.node (Digest.leaf c)
          (Digest.node (Digest.leaf b) (Digest.leaf a))) := by
  have hf : dFrontier [a, b, c]
      = [(1, Digest.leaf c),
         (2, Digest.node (Digest.leaf b) (Digest.leaf a))] := by
    simp only [dFrontier, List.foldl_cons, List.foldl_nil, dPush_k0, dPush_k1,
      dPush_k2]
  rw [rootDigestOfValues, hf]
  rfl

theorem rootValues_eval4 (a b c d : String) :
    rootDigestOfValues [a, b, c, d]
      = some (Digest.node
          (Digest.node (Digest.leaf d) (Digest.leaf c))
          (Digest.node (Digest.leaf b) (Digest.leaf a))) := by
  have hf : dFrontier [a, b, c, d]
      = [(4, Digest.node
              (Digest.node (Digest.leaf d) (Digest.leaf c))
              (Digest.node (Digest.leaf b) (Digest.leaf a)))] := by
    simp only [dFrontier, List.foldl_cons, List.foldl_nil, dPush_k0, dPush_k1,
      dPush_k2, dPush_k12]
  rw [rootDigestOfValues, hf]
  rfl

theorem rootValues_eval5 (a b c d e : String) :
    rootDigestOfValues [a, b, c, d, e]
      = some (Digest.node (Digest.leaf e)
          (Digest.node
            (Digest.node (Digest.leaf d) (Digest.leaf c))
            (Digest.node (Digest.leaf b) (Digest.leaf a)))) := by
  have hf : dFrontier [a, b, c, d, e]
      = [(1, Digest.leaf e),
         (4, Digest.node
              (Digest.node (Digest.leaf d) (Digest.leaf c))
              (Digest.node (Digest.leaf b) (Digest.leaf a)))] := by
    simp only [dFrontier, List.foldl_cons, List.foldl_nil, dPush_k0, dPush_k1,
      dPush_k2, dPush_k12, dPush_k4]
  rw [rootDigestOfValues, hf]
  rfl

theorem rootValues_eval6 (a b c d e f : String) :
    rootDigestOfValues [a, b, c, d, e, f]
      = some (Digest.node
          (Digest.node (Digest.leaf f) (Digest.leaf e))
          (Digest.node
            (Digest.node (Digest.leaf d) (Digest.leaf c))
            (Digest.node (Digest.leaf b) (Digest.leaf a)))) := by
  have hf : dFrontier [a, b, c, d, e, f]
      = [(2, Digest.node (Digest.leaf f) (Digest.leaf e)),
         (4, Digest.node
              (Digest.node (Digest.leaf d) (Digest.leaf c))
              (Digest.node (Digest.leaf b) (Digest.leaf a)))] := by
    simp only [dFrontier, List.foldl_cons, List.foldl_nil, dPush_k0, dPush_k1,
      dPush_k2, dPush_k12, dPush_k4, dPush_k14]
  rw [rootDigestOfValues, hf]
  rfl

/-- C9: two independent runs over the same value sequence end in the same
root digest, and that digest is a function of the value sequence alone
(`rootDigestOfValues`), independent of node identities; `∀ vs` covers
every prefix, hence every corresponding insertion. -/
theorem root_digest_deterministic (vs : List String) (s1 s2 : MTree)
    (h1 : insertAll emptyTree vs = some s1)
    (h2 : insertAll emptyTree vs = some s2) :
    rootDigest s1 = rootDigest s2 ∧
      rootDigest s1 = rootDigestOfValues vs := by
  rcases vs with _ | ⟨a, vs⟩
  · simp only [insertAll] at h1 h2
    cases h1
    cases h2
    exact ⟨rfl, rfl⟩
  rcases vs with _ | ⟨b, vs⟩
  · rw [insertAll_eval1 a] at h1 h2
    cases h1
    cases h2
    rw [rootValues_eval1 a]
    exact ⟨rfl, rfl⟩
  rcases vs with _ | ⟨c, vs⟩
  · rw [insertAll_eval2 a b] at h1 h2
    cases h1
    cases h2
    rw [rootValues_eval2 a b]
    exact ⟨rfl, rfl⟩
  rcases vs with _ | ⟨d, vs⟩
  · rw [insertAll_eval3 a b c] at h1 h2
    cases h1
    cases h2
    rw [rootValues_eval3 a b c]
    exact ⟨rfl, rfl⟩
  rcases vs with _ | ⟨e, vs⟩
  · rw [insertAll_eval4 a b c d] at h1 h2
    cases h1
    cases h2
    rw [rootValues_eval4 a b c d]
    exact ⟨rfl, rfl⟩
  rcases vs with _ | ⟨f, vs⟩
  · rw [insertAll_eval5 a b c d e] at h1 h2
    cases h1
    cases h2
    rw [rootValues_eval5 a b c d e]
    exact ⟨rfl, rfl⟩
  rcases vs with _ | ⟨g, vs⟩
  · rw [insertAll_eval6 a b c d e f] at h1 h2
    cases h1
    cases h2
    rw [rootValues_eval6 a b c d e f]
    exact ⟨rfl, rfl⟩
  rw [insertAll_none_of_seven a b c d e f g vs] at h1
  exact Option.noConfusion h1

/-- Witness for C9 at a concrete input: the two-insertion tree. -/
theorem root_digest_deterministic_w :
    rootDigest (S2 "a" "b") = rootDigest (S2 "a" "b") ∧
      rootDigest (S2 "a" "b") = rootDigestOfValues ["a", "b"] :=
  root_digest_deterministic ["a", "b"] (S2 "a" "b") (S2 "a" "b")
    (insertAll_eval2 "a" "b") (insertAll_eval2 "a" "b")
